import Mathlib

/-!
Verification of the mental-insights core (src/src/mental_insights_database.py
and its caller app.py): the correlation ranker `get_stress_level_insights`,
the SQLite-backed per-day insight store, and the startup orchestrator
`generate_insights_from_iot_data`.

Modelling conventions (shallow embedding):
* A pandas DataFrame is a list of named columns (`Frame`).  Cells are either
  numbers (modelled exactly as rationals), calendar dates, or timestamps;
  `DataFrame.corr` only considers the numeric columns.
* The Pearson correlation between two columns is `sxy / sqrt (sxx * syy)`
  where `sxy`, `sxx`, `syy` are the centered sums of products; it is NaN
  exactly when `sxx = 0` or `syy = 0` (then the numerator is also 0, giving
  0.0/0.0).  A correlation value is therefore represented exactly by the
  triple `(sxy, sxx, syy)` (`CorrVal`), with `CorrVal.toReal` giving the
  real value and `absKeyQ c = sxy^2 / (sxx * syy)` its squared magnitude,
  which is rational and hence lets the sort comparator stay computable:
  for defined correlations, |r₁| ≤ |r₂| iff absKeyQ c₁ ≤ absKeyQ c₂.
* Python's `list.sort` is stable; it is modelled by `List.mergeSort`,
  which is stable as well.
-/

namespace MentalInsights

/-- A calendar date (`datetime.date`). -/
structure CalDate where
  year : ℕ
  month : ℕ
  day : ℕ
deriving DecidableEq

/-- A parsed timestamp (`pandas.Timestamp`): the attributes the code reads.
`isoweekday` is the value of `x.isoweekday()` (Monday=1 … Sunday=7),
kept abstract as an attribute of the timestamp. -/
structure Timestamp where
  date : CalDate
  hour : ℕ
  isoweekday : ℕ
deriving DecidableEq

/-- One cell of a DataFrame column: a number, a date, or a timestamp. -/
inductive CellVal where
  | num (q : ℚ)
  | date (d : CalDate)
  | dt (t : Timestamp)
deriving DecidableEq

/-- A DataFrame: named columns in order. -/
abbrev Frame := List (String × List CellVal)

/-- A column is numeric when every cell is a number; `DataFrame.corr`
considers exactly these columns. -/
def asNumCol : List CellVal → Option (List ℚ)
  | [] => some []
  | CellVal.num q :: rest => (asNumCol rest).map (fun l => q :: l)
  | _ => none

/-- The numeric columns of a frame, in original column order. -/
def numericCols (f : Frame) : List (String × List ℚ) :=
  f.filterMap (fun c => (asNumCol c.2).map (fun v => (c.1, v)))

/-- Mean of a column. -/
def mean (l : List ℚ) : ℚ := l.sum / l.length

/-- Centered sum of products `Σ (x - mean xs) * (y - mean ys)` over paired
entries: the building block of the Pearson correlation. -/
def cSum (xs ys : List ℚ) : ℚ :=
  ((xs.zip ys).map (fun p => (p.1 - mean xs) * (p.2 - mean ys))).sum

/-- Exact representation of one Pearson correlation value
`sxy / sqrt (sxx * syy)`. -/
structure CorrVal where
  sxy : ℚ
  sxx : ℚ
  syy : ℚ
deriving DecidableEq

/-- The correlation triple of a feature column against the target column. -/
def pearsonVal (xs ys : List ℚ) : CorrVal :=
  ⟨cSum xs ys, cSum xs xs, cSum ys ys⟩

/-- `not np.isnan(correlation_value)`: the correlation is a defined number
exactly when both centered sums of squares are nonzero. -/
def corrDefined (c : CorrVal) : Bool :=
  !(c.sxx == 0) && !(c.syy == 0)

/-- The squared magnitude of the correlation, as a rational:
`|r|^2 = sxy^2 / (sxx * syy)`. -/
def absKeyQ (c : CorrVal) : ℚ := c.sxy ^ 2 / (c.sxx * c.syy)

/-- The real value of the correlation. -/
noncomputable def CorrVal.toReal (c : CorrVal) : ℝ :=
  (c.sxy : ℝ) / Real.sqrt ((c.sxx : ℝ) * (c.syy : ℝ))

/-- The comparator of `tuples.sort(key=lambda tup: -1 * np.abs(tup[1]))`:
ascending in the key `-|r|`, i.e. `a` comes before `b` when
`|r_b| ≤ |r_a|`. -/
def corrLe (a b : String × CorrVal) : Bool :=
  decide (absKeyQ b.2 ≤ absKeyQ a.2)

/-- The target column `df_to_check['stress_level']`. -/
def stressCol (f : Frame) : List ℚ :=
  (((numericCols f).find? (fun c => c.1 == "stress_level")).map (fun c => c.2)).getD []

/-- The row `dict(df_to_check.corr()['stress_level'])`: the correlation of
every numeric column against the target, in original column order. -/
def stressRow (f : Frame) : List (String × CorrVal) :=
  (numericCols f).map (fun c => (c.1, pearsonVal c.2 (stressCol f)))

/-- The list comprehension of `get_stress_level_insights`: the correlation
row restricted to columns other than the target and with defined (non-NaN)
correlation, in original column order. -/
def stressTuples (f : Frame) : List (String × CorrVal) :=
  (stressRow f).filter (fun p => p.1 != "stress_level" && corrDefined p.2)

/-- `tuples` after the stable in-place sort by descending `|r|`. -/
def rankedTuples (f : Frame) : List (String × CorrVal) :=
  (stressTuples f).mergeSort corrLe

/-- The result dictionary of `get_stress_level_insights`. -/
structure Insights where
  top_stress_features : List String
  correlations : List (String × CorrVal)
deriving DecidableEq

/-- `get_stress_level_insights(df_to_check, top_n)`: the top-`top_n`
correlations with `stress_level`, plus the name-only view. -/
def get_stress_level_insights (f : Frame) (top_n : ℕ) : Insights :=
  { top_stress_features := ((rankedTuples f).take top_n).map (fun p => p.1)
    correlations := (rankedTuples f).take top_n }

/-! ### Enrichment and per-day orchestration (`generate_insights_from_iot_data`)

The loaded CSV is modelled as the parsed timestamp column `ts` (after
`pd.to_datetime`) together with the remaining raw columns `raw`; pandas
keeps the timestamp column in the frame (it is non-numeric, so `corr`
ignores it) and appends each newly assigned derived column at the end,
in assignment order. -/

/-- The enriched frame after the six derived-column assignments
(lines 144-150 of the source). -/
def generate_enrich (ts : List Timestamp) (raw : Frame) : Frame :=
  ("timestamp", ts.map CellVal.dt) :: raw ++
  [("timestamp_day", ts.map (fun t => CellVal.date t.date)),
   ("timestamp_day_of_month", ts.map (fun t => CellVal.num t.date.day)),
   ("timestamp_day_of_week", ts.map (fun t => CellVal.num t.isoweekday)),
   ("timestamp_hour", ts.map (fun t => CellVal.num t.hour)),
   ("timestamp_hour_4_hour_bucket", ts.map (fun t => CellVal.num ((t.hour / 4 : ℕ)))),
   ("timestamp_hour_6_hour_bucket", ts.map (fun t => CellVal.num ((t.hour / 6 : ℕ))))]

/-- `df.drop(name, axis=1)`: remove the named column, keeping order. -/
def eraseCol (f : Frame) (name : String) : Frame :=
  f.filter (fun c => c.1 != name)

/-- `df[name]`: the first column with the given name, if any. -/
def colValues (f : Frame) (name : String) : Option (List CellVal) :=
  (f.find? (fun c => c.1 == name)).map (fun c => c.2)

/-- The frame `iot_data.drop('timestamp_day', axis=1)` ranked for the whole
set (line 152-153). -/
def whole_set_frame (ts : List Timestamp) (raw : Frame) : Frame :=
  eraseCol (generate_enrich ts raw) "timestamp_day"

/-- `self.insights_on_whole_set` as computed at startup. -/
def insights_on_whole_set (ts : List Timestamp) (raw : Frame) (top_n : ℕ) : Insights :=
  get_stress_level_insights (whole_set_frame ts raw) top_n

/-- The data columns of
`iot_data.drop('timestamp_day_of_week', axis=1).set_index('timestamp_day')`:
`set_index` moves the `timestamp_day` column out of the data columns into
the index. -/
def iot_data_by_day (ts : List Timestamp) (raw : Frame) : Frame :=
  eraseCol (eraseCol (generate_enrich ts raw) "timestamp_day_of_week") "timestamp_day"

/-- The index of `iot_data_by_day`: the calendar date of each row. -/
def dayIndex (ts : List Timestamp) : List CalDate :=
  ts.map (fun t => t.date)

/-- The row positions whose index value equals `d`. -/
def idxPositions (idx : List CalDate) (d : CalDate) : List ℕ :=
  (idx.enum.filter (fun p => p.2 == d)).map (fun p => p.1)

/-- The sub-frame at the given row positions. -/
def subFrame (f : Frame) (pos : List ℕ) : Frame :=
  f.map (fun c => (c.1, pos.filterMap (fun i => c.2.get? i)))

/-- One iteration of the per-day loop (lines 156-157):
`get_stress_level_insights(iot_data_by_day.loc[_day], self.top_n)`.

pandas label indexing `df.loc[label]` raises `KeyError` when no row has
that index value, returns a one-row *Series* (not a DataFrame) when exactly
one row has it, and returns a DataFrame of those rows otherwise.  On a
Series, the subsequent `df_to_check.corr()` call raises
`TypeError: corr() missing 1 required positional argument: 'other'`,
because `Series.corr` requires the other series as an argument.  Both
failure modes are modelled as `Except.error`. -/
def per_day_insights (ts : List Timestamp) (raw : Frame) (d : CalDate)
    (top_n : ℕ) : Except String Insights :=
  match idxPositions (dayIndex ts) d with
  | [] => Except.error "KeyError"
  | [_] => Except.error "TypeError: corr() missing 1 required positional argument: other"
  | pos => Except.ok (get_stress_level_insights (subFrame (iot_data_by_day ts raw) pos) top_n)

/-- The end-to-end scenario of the spec: rows
`(2024-01-01T08:00, stress=5, hr=70)`, `(2024-01-01T20:00, stress=8, hr=90)`,
`(2024-01-02T08:00, stress=3, hr=60)`.  2024-01-01 was a Monday. -/
def scenarioTs : List Timestamp :=
  [⟨⟨2024, 1, 1⟩, 8, 1⟩, ⟨⟨2024, 1, 1⟩, 20, 1⟩, ⟨⟨2024, 1, 2⟩, 8, 2⟩]

/-- The raw feature columns of the end-to-end scenario. -/
def scenarioRaw : Frame :=
  [("stress_level", [CellVal.num 5, CellVal.num 8, CellVal.num 3]),
   ("hr", [CellVal.num 70, CellVal.num 90, CellVal.num 60])]

/-! ### The insight store (SQLite table `mental_insights_by_day`)

The table is `day DATE PRIMARY KEY, mental_insights_json TEXT NOT NULL`;
its state is the list of rows.  The `day` values are the TEXT results of
`date.isoformat()` (a `DATE`-declared column has NUMERIC affinity, and a
string like `2024-01-01` is not a well-formed number, so it is stored as
TEXT); SQLite compares TEXT with the BINARY collation, i.e. byte-wise
lexicographic order, modelled by `charsLe` on the strings' characters.

A stored value is modelled as the Python value `json.loads(stored_text)`
where `stored_text = json.dumps(v)`: re-reading the serialized text yields
exactly `jsonRoundtrip v`, the value in which every Python tuple has
become a JSON array and hence reads back as a Python list. -/

/-- A Python value as serialized/deserialized by the `json` module. -/
inductive PyVal where
  | str (s : String)
  | num (q : ℚ)
  | list (xs : List PyVal)
  | tup (xs : List PyVal)
  | dict (kvs : List (String × PyVal))

mutual

/-- `json.loads(json.dumps(v))`: `dumps` writes both lists and tuples as
JSON arrays, and `loads` reads arrays back as lists; everything else is
preserved. -/
def jsonRoundtrip : PyVal → PyVal
  | .str s => .str s
  | .num q => .num q
  | .list xs => .list (jsonRoundtripList xs)
  | .tup xs => .list (jsonRoundtripList xs)
  | .dict kvs => .dict (jsonRoundtripKVs kvs)

/-- `jsonRoundtrip` on each element of a list. -/
def jsonRoundtripList : List PyVal → List PyVal
  | [] => []
  | x :: xs => jsonRoundtrip x :: jsonRoundtripList xs

/-- `jsonRoundtrip` on each value of a dict. -/
def jsonRoundtripKVs : List (String × PyVal) → List (String × PyVal)
  | [] => []
  | (k, v) :: kvs => (k, jsonRoundtrip v) :: jsonRoundtripKVs kvs

end

/-- The rows of the `mental_insights_by_day` table. -/
abbrev DbState := List (String × PyVal)

/-- `INSERT OR REPLACE ... VALUES (?, ?)` with `day` the primary key:
any existing row with the same key is deleted and the new row is
inserted. -/
def upsertRow (st : DbState) (k : String) (v : PyVal) : DbState :=
  st.filter (fun r => r.1 != k) ++ [(k, v)]

/-- The ASCII digit character of `n < 10`. -/
def digitChar (n : ℕ) : Char := Char.ofNat (48 + n)

/-- The two decimal digit characters of `n ≤ 99`, zero padded. -/
def pad2 (n : ℕ) : List Char := [digitChar (n / 10 % 10), digitChar (n % 10)]

/-- The four decimal digit characters of `n ≤ 9999`, zero padded. -/
def pad4 (n : ℕ) : List Char :=
  [digitChar (n / 1000 % 10), digitChar (n / 100 % 10), digitChar (n / 10 % 10),
   digitChar (n % 10)]

/-- `date.isoformat()`: the characters `YYYY-MM-DD`, zero padded
(faithful for valid `datetime.date` values, whose year is 1..9999). -/
def isoChars (d : CalDate) : List Char :=
  pad4 d.year ++ ('-' :: (pad2 d.month ++ ('-' :: pad2 d.day)))

/-- `date.isoformat()` as a string. -/
def isoformat (d : CalDate) : String := String.mk (isoChars d)

/-- Byte-wise lexicographic order on character lists: SQLite's BINARY
collation on (ASCII) TEXT values, as used by `ORDER BY day`. -/
def charsLe : List Char → List Char → Bool
  | [], _ => true
  | _ :: _, [] => false
  | c :: cs, e :: es =>
    decide (c.toNat < e.toNat) || ((c.toNat == e.toNat) && charsLe cs es)

/-- The `ORDER BY` comparator on the stored `day` strings. -/
def strLe (a b : String) : Bool := charsLe a.data b.data

/-- `insert_mental_insights_for_day(self, _day, insights)`: upserts the
row `(day.isoformat(), json.dumps(insights))`.  The function is annotated
`-> bool` but its body ends without a `return` statement, so Python
returns `None`; the second component is that return value. -/
def insert_mental_insights_for_day (st : DbState) (d : CalDate) (insights : PyVal) :
    DbState × Option Bool :=
  (upsertRow st (isoformat d) (jsonRoundtrip insights), none)

/-- `get_mental_insights_by_day(self, day)`:
`SELECT mental_insights_json ... WHERE day = ?` with `fetchone`; the row
tuple is truthy exactly when a row was found, in which case
`json.loads(result[0])` re-reads the stored text; otherwise `None`. -/
def get_mental_insights_by_day (st : DbState) (d : CalDate) : Option PyVal :=
  match (st.find? (fun r => r.1 == isoformat d)).map (fun r => r.2) with
  | some v => some v
  | none => none

/-- `get_mental_insights_for_all_days(self)`:
`SELECT day, mental_insights_json ... ORDER BY day` with `fetchall`,
then `(row[0], json.loads(row[1]))` for every row. -/
def get_mental_insights_for_all_days (st : DbState) : List (String × PyVal) :=
  st.mergeSort (fun a b => strLe a.1 b.1)

/-- Strict order on calendar dates. -/
def dateLt (a b : CalDate) : Prop :=
  a.year < b.year ∨ (a.year = b.year ∧
    (a.month < b.month ∨ (a.month = b.month ∧ a.day < b.day)))

/-- A value representable as a Python `datetime.date`. -/
def ValidDate (d : CalDate) : Prop :=
  1 ≤ d.year ∧ d.year ≤ 9999 ∧ 1 ≤ d.month ∧ d.month ≤ 12 ∧ 1 ≤ d.day ∧ d.day ≤ 31

instance (d : CalDate) : Decidable (ValidDate d) := by
  unfold ValidDate
  infer_instance

/-- The PRIMARY KEY invariant: at most one row per day. -/
def KeysNodup (st : DbState) : Prop := (st.map (fun r => r.1)).Nodup

instance (st : DbState) : Decidable (KeysNodup st) := by
  unfold KeysNodup
  infer_instance

/-- Every key of the table was written by `insert_mental_insights_for_day`,
i.e. is the isoformat of a valid date. -/
def DatesValid (st : DbState) : Prop :=
  ∀ k ∈ st.map (fun r => r.1), ∃ d, ValidDate d ∧ k = isoformat d

/-- A concrete day used in counterexamples and witnesses. -/
def c2Day : CalDate := ⟨2024, 1, 1⟩

/-- A concrete ranking dictionary as built by `get_stress_level_insights`:
`correlations` is a list of Python *tuples*. -/
def c2RankingY : PyVal :=
  PyVal.dict [("top_stress_features", PyVal.list [PyVal.str "hr"]),
              ("correlations", PyVal.list [PyVal.tup [PyVal.str "hr", PyVal.num (9/10)]])]

/-! ### Helper lemmas about the ranker -/

theorem zip_self (l : List ℚ) : l.zip l = l.map (fun x => (x, x)) := by
  induction l with
  | nil => rfl
  | cons x xs ih => simp [List.zip_cons_cons, ih]

theorem cSum_self_nonneg (xs : List ℚ) : 0 ≤ cSum xs xs := by
  rw [cSum, zip_self, List.map_map]
  apply List.sum_nonneg
  intro y hy
  simp only [List.mem_map, Function.comp] at hy
  obtain ⟨x, hx, rfl⟩ := hy
  exact mul_self_nonneg _

theorem sum_of_const {l : List ℚ} {v : ℚ} (h : ∀ x ∈ l, x = v) :
    l.sum = l.length * v := by
  induction l with
  | nil => simp
  | cons x xs ih =>
    simp only [List.sum_cons, List.length_cons]
    rw [h x (by simp), ih (fun y hy => h y (by simp [hy]))]
    push_cast
    ring

theorem mean_of_const {l : List ℚ} {v : ℚ} (hne : l ≠ []) (h : ∀ x ∈ l, x = v) :
    mean l = v := by
  have hlen : (l.length : ℚ) ≠ 0 := by
    exact_mod_cast Nat.cast_ne_zero.mpr (by simpa [List.length_eq_zero] using hne)
  rw [mean, sum_of_const h, mul_comm, mul_div_assoc, div_self hlen, mul_one]

theorem cSum_self_const {l : List ℚ} (h : ∀ x ∈ l, ∀ y ∈ l, x = y) :
    cSum l l = 0 := by
  cases l with
  | nil => simp [cSum]
  | cons v xs =>
    have hconst : ∀ x ∈ v :: xs, x = v := fun x hx => h x hx v (by simp)
    rw [cSum, zip_self, List.map_map]
    apply List.sum_eq_zero
    intro y hy
    simp only [List.mem_map, Function.comp] at hy
    obtain ⟨x, hx, rfl⟩ := hy
    rw [mean_of_const (by simp) hconst, hconst x hx]
    ring

theorem corrLe_trans : ∀ (a b c : String × CorrVal),
    corrLe a b → corrLe b c → corrLe a c := by
  intro a b c hab hbc
  simp only [corrLe, decide_eq_true_eq] at hab hbc ⊢
  exact le_trans hbc hab

theorem corrLe_total : ∀ (a b : String × CorrVal), corrLe a b || corrLe b a := by
  intro a b
  simp only [corrLe, Bool.or_eq_true, decide_eq_true_eq]
  exact (le_total (absKeyQ b.2) (absKeyQ a.2))

theorem absKeyQ_nonneg {c : CorrVal} (hx : 0 < c.sxx) (hy : 0 < c.syy) :
    0 ≤ absKeyQ c :=
  div_nonneg (sq_nonneg _) (mul_pos hx hy).le

theorem abs_toReal_eq {c : CorrVal} (hx : 0 < c.sxx) (hy : 0 < c.syy) :
    |c.toReal| = Real.sqrt ((absKeyQ c : ℝ)) := by
  have hd : (0:ℝ) < (c.sxx : ℝ) * (c.syy : ℝ) := by
    apply mul_pos <;> exact_mod_cast ‹_›
  rw [CorrVal.toReal, abs_div, abs_of_nonneg (Real.sqrt_nonneg _)]
  rw [absKeyQ]
  push_cast
  rw [Real.sqrt_div (sq_nonneg _), Real.sqrt_sq_eq_abs]

/-- Every tuple surviving the NaN filter has strictly positive centered sums
of squares (they are sums of squares, and nonzero by the filter). -/
theorem mem_stressTuples_pos {f : Frame} {p : String × CorrVal}
    (hp : p ∈ stressTuples f) : 0 < p.2.sxx ∧ 0 < p.2.syy := by
  rw [stressTuples, List.mem_filter] at hp
  obtain ⟨hmem, hfil⟩ := hp
  simp only [Bool.and_eq_true, corrDefined, bne_iff_ne, ne_eq,
    Bool.not_eq_true', beq_eq_false_iff_ne] at hfil
  obtain ⟨-, hxx, hyy⟩ := hfil
  rw [stressRow, List.mem_map] at hmem
  obtain ⟨c, -, rfl⟩ := hmem
  simp only [pearsonVal] at hxx hyy ⊢
  exact ⟨lt_of_le_of_ne (cSum_self_nonneg _) (Ne.symm hxx),
         lt_of_le_of_ne (cSum_self_nonneg _) (Ne.symm hyy)⟩

theorem eq_of_nodup_keys {α : Type} {l : List (String × α)}
    (h : (l.map (fun p => p.1)).Nodup) {k : String} {a b : α}
    (ha : (k, a) ∈ l) (hb : (k, b) ∈ l) : a = b := by
  induction l with
  | nil => cases ha
  | cons x xs ih =>
    simp only [List.map_cons, List.nodup_cons] at h
    rcases List.mem_cons.1 ha with ha' | ha' <;>
      rcases List.mem_cons.1 hb with hb' | hb'
    · rw [← ha'] at hb'
      exact (Prod.mk.injEq _ _ _ _ ▸ congrArg id hb').2.symm ▸ rfl
    · exact absurd (List.mem_map.2 ⟨(k, b), hb', by simp [← ha']⟩) h.1
    · exact absurd (List.mem_map.2 ⟨(k, a), ha', by simp [← hb']⟩) h.1
    · exact ih h.2 ha' hb'

/-! ### Claims about the ranker -/

/-- **C1**: for every input table and every `top_n ≥ 0`, the ranking
operation `get_stress_level_insights` returns at most `top_n`
(name, correlation) pairs, ordered by non-increasing absolute correlation
value; it is the `top_n`-prefix of the stable sort `rankedTuples` of the
defined-correlation tuples `stressTuples` (original column order), which is
a permutation of those tuples in which elements of equal absolute
correlation (equivalently, equal `absKeyQ` key) keep their original
relative order; if fewer than `top_n` tuples exist, all are returned. -/
theorem C1_rank_sorted_truncated (f : Frame) (n : ℕ) :
    (get_stress_level_insights f n).correlations.length ≤ n ∧
    List.Chain' (fun a b => |CorrVal.toReal b.2| ≤ |CorrVal.toReal a.2|)
      (get_stress_level_insights f n).correlations ∧
    (get_stress_level_insights f n).correlations = (rankedTuples f).take n ∧
    List.Perm (rankedTuples f) (stressTuples f) ∧
    (∀ q : ℚ, (rankedTuples f).filter (fun p => absKeyQ p.2 == q)
        = (stressTuples f).filter (fun p => absKeyQ p.2 == q)) ∧
    (∀ p ∈ stressTuples f, ∀ r ∈ stressTuples f,
        (|CorrVal.toReal p.2| = |CorrVal.toReal r.2| ↔ absKeyQ p.2 = absKeyQ r.2)) ∧
    ((stressTuples f).length ≤ n →
      (get_stress_level_insights f n).correlations = rankedTuples f) := by
  refine ⟨?_, ?_, rfl, List.mergeSort_perm _ _, ?_, ?_, ?_⟩
  · simp [get_stress_level_insights, List.length_take]
  · have hs : (rankedTuples f).Pairwise (fun a b => corrLe a b) :=
      List.sorted_mergeSort corrLe_trans corrLe_total (stressTuples f)
    have hp : (rankedTuples f).Pairwise
        (fun a b => |CorrVal.toReal b.2| ≤ |CorrVal.toReal a.2|) := by
      refine hs.imp_of_mem ?_
      intro a b ha hb hle
      have ha' : a ∈ stressTuples f := by
        rw [rankedTuples] at ha
        exact List.mem_mergeSort.1 ha
      have hb' : b ∈ stressTuples f := by
        rw [rankedTuples] at hb
        exact List.mem_mergeSort.1 hb
      have hpa := mem_stressTuples_pos ha'
      have hpb := mem_stressTuples_pos hb'
      rw [abs_toReal_eq hpa.1 hpa.2, abs_toReal_eq hpb.1 hpb.2]
      apply Real.sqrt_le_sqrt
      have : absKeyQ b.2 ≤ absKeyQ a.2 := by
        simpa [corrLe] using hle
      exact_mod_cast this
    exact ((hp.sublist (List.take_sublist n _)).chain')
  · intro q
    set p : String × CorrVal → Bool := fun t => absKeyQ t.2 == q with hpdef
    have hpw : ((stressTuples f).filter p).Pairwise (fun a b => corrLe a b) := by
      apply List.pairwise_of_forall_mem_list
      intro a ha b hb
      have ha' := (List.mem_filter.1 ha).2
      have hb' := (List.mem_filter.1 hb).2
      simp only [hpdef, beq_iff_eq] at ha' hb'
      simp [corrLe, ha', hb']
    have hsub : List.Sublist ((stressTuples f).filter p) (rankedTuples f) :=
      List.sublist_mergeSort corrLe_trans corrLe_total hpw (List.filter_sublist _)
    have hself : ((stressTuples f).filter p).filter p = (stressTuples f).filter p :=
      List.filter_eq_self.mpr (fun a ha => (List.mem_filter.1 ha).2)
    have hsub2 : List.Sublist ((stressTuples f).filter p) ((rankedTuples f).filter p) := by
      have := hsub.filter p
      rwa [hself] at this
    have hlen : ((stressTuples f).filter p).length = ((rankedTuples f).filter p).length :=
      (((List.mergeSort_perm (stressTuples f) corrLe).filter p).length_eq).symm
    exact (hsub2.eq_of_length hlen).symm
  · intro p hp r hr
    have h1 := mem_stressTuples_pos hp
    have h2 := mem_stressTuples_pos hr
    rw [abs_toReal_eq h1.1 h1.2, abs_toReal_eq h2.1 h2.2]
    rw [Real.sqrt_inj (by exact_mod_cast absKeyQ_nonneg h1.1 h1.2)
        (by exact_mod_cast absKeyQ_nonneg h2.1 h2.2)]
    exact_mod_cast Iff.rfl
  · intro hlen
    have : (rankedTuples f).length ≤ n := by
      rwa [rankedTuples, List.length_mergeSort]
    simp [get_stress_level_insights, List.take_of_length_le this]

/-- **C7**: the name-only sequence `top_stress_features` equals, element
for element and in order, the first components of the pair sequence
`correlations`; both have the same length. -/
theorem C7_names_are_view_of_pairs (f : Frame) (n : ℕ) :
    (get_stress_level_insights f n).top_stress_features
      = ((get_stress_level_insights f n).correlations).map (fun p => p.1) ∧
    (get_stress_level_insights f n).top_stress_features.length
      = (get_stress_level_insights f n).correlations.length := by
  refine ⟨rfl, ?_⟩
  simp [get_stress_level_insights]

/-- **C4**: the ranking never contains the target name `stress_level`, and
any numeric column with a constant value (undefined, NaN correlation) is
silently excluded. -/
theorem C4_target_and_nan_excluded (f : Frame) (n : ℕ)
    (h : ((numericCols f).map (fun p => p.1)).Nodup) :
    "stress_level" ∉ (get_stress_level_insights f n).top_stress_features ∧
    "stress_level" ∉ ((get_stress_level_insights f n).correlations).map (fun p => p.1) ∧
    (∀ p ∈ (get_stress_level_insights f n).correlations, corrDefined p.2 = true) ∧
    (∀ name vals, (name, vals) ∈ numericCols f → (∀ x ∈ vals, ∀ y ∈ vals, x = y) →
      name ∉ (get_stress_level_insights f n).top_stress_features) := by
  have hname : ∀ p ∈ (get_stress_level_insights f n).correlations,
      p ∈ stressTuples f := by
    intro p hp
    have : p ∈ rankedTuples f :=
      (List.take_sublist n _).mem hp
    rw [rankedTuples] at this
    exact List.mem_mergeSort.1 this
  refine ⟨?_, ?_, ?_, ?_⟩
  · intro hmem
    rw [get_stress_level_insights] at hmem
    simp only [List.mem_map] at hmem
    obtain ⟨p, hp, hp1⟩ := hmem
    have hst := hname p hp
    have := (List.mem_filter.1 hst).2
    simp only [Bool.and_eq_true, bne_iff_ne, ne_eq] at this
    exact this.1 hp1
  · intro hmem
    simp only [List.mem_map] at hmem
    obtain ⟨p, hp, hp1⟩ := hmem
    have hst := hname p hp
    have := (List.mem_filter.1 hst).2
    simp only [Bool.and_eq_true, bne_iff_ne, ne_eq] at this
    exact this.1 hp1
  · intro p hp
    have hst := hname p hp
    have := (List.mem_filter.1 hst).2
    simp only [Bool.and_eq_true] at this
    exact this.2
  · intro name vals hvals hconst hmem
    rw [get_stress_level_insights] at hmem
    simp only [List.mem_map] at hmem
    obtain ⟨p, hp, hp1⟩ := hmem
    have hst := hname p hp
    have hdef := (List.mem_filter.1 hst).2
    have hmem' := List.mem_of_mem_filter hst
    rw [stressRow, List.mem_map] at hmem'
    obtain ⟨c, hc, hcp⟩ := hmem'
    have hc1 : c.1 = name := by rw [← hp1, ← hcp]
    have hcols : c.2 = vals := by
      apply eq_of_nodup_keys h (k := name)
      · rw [← hc1]; exact hc
      · exact hvals
    have hsxx : p.2.sxx = 0 := by
      rw [← hcp]
      simp only [pearsonVal]
      rw [hcols]
      exact cSum_self_const hconst
    simp only [Bool.and_eq_true, corrDefined, Bool.not_eq_true',
      beq_eq_false_iff_ne, ne_eq] at hdef
    exact hdef.2.1 hsxx

theorem asNumCol_map_num {α : Type} (g : α → ℚ) (l : List α) :
    asNumCol (l.map (fun t => CellVal.num (g t))) = some (l.map g) := by
  induction l with
  | nil => rfl
  | cons x xs ih => simp [asNumCol, ih]

theorem map_fst_eraseCol (f : Frame) (n : String) :
    (eraseCol f n).map (fun c => c.1)
      = (f.map (fun c => c.1)).filter (fun m => m != n) := by
  induction f with
  | nil => rfl
  | cons c cs ih =>
    by_cases hc : c.1 = n
    · simp [eraseCol, List.filter_cons, hc] at ih ⊢
      exact ih
    · simp [eraseCol, List.filter_cons, hc] at ih ⊢
      exact ih

/-- **C3** (evaluation of the code at the failing input): in the spec's
end-to-end scenario, the date `2024-01-02` has exactly one row, so the
per-day generation step raises a `TypeError` instead of producing the empty
ranking: `.loc` yields a Series for a single-row day, and `Series.corr()`
is missing its required `other` argument. -/
theorem C3_single_row_day_raises :
    per_day_insights scenarioTs scenarioRaw ⟨2024, 1, 2⟩ 1
      = Except.error "TypeError: corr() missing 1 required positional argument: other" := by
  rfl

/-- **C8**: the per-day computation excludes the day-of-week column from
the candidate feature set (and, via `set_index`, the calendar-date column),
while the whole-set computation keeps day-of-week as a numeric candidate
and drops exactly the calendar-date column. -/
theorem C8_per_day_drops_weekday_only (ts : List Timestamp) (raw : Frame) :
    "timestamp_day_of_week" ∈ (numericCols (whole_set_frame ts raw)).map (fun c => c.1) ∧
    "timestamp_day" ∉ (whole_set_frame ts raw).map (fun c => c.1) ∧
    (whole_set_frame ts raw).map (fun c => c.1)
      = ((generate_enrich ts raw).map (fun c => c.1)).filter (fun m => m != "timestamp_day") ∧
    "timestamp_day_of_week" ∉ (iot_data_by_day ts raw).map (fun c => c.1) ∧
    (∀ pos, "timestamp_day_of_week" ∉ (subFrame (iot_data_by_day ts raw) pos).map (fun c => c.1)) := by
  refine ⟨?_, ?_, map_fst_eraseCol _ _, ?_, ?_⟩
  · have hmem : ("timestamp_day_of_week", ts.map (fun t => CellVal.num t.isoweekday))
        ∈ whole_set_frame ts raw := by
      rw [whole_set_frame, eraseCol, List.mem_filter]
      constructor
      · rw [generate_enrich]
        simp
      · simp
    apply List.mem_map.2
    refine ⟨("timestamp_day_of_week", ts.map (fun t => (t.isoweekday : ℚ))), ?_, rfl⟩
    rw [numericCols]
    apply List.mem_filterMap.2
    refine ⟨("timestamp_day_of_week", ts.map (fun t => CellVal.num t.isoweekday)), hmem, ?_⟩
    rw [asNumCol_map_num]
    rfl
  · intro hmem
    obtain ⟨c, hc, hc1⟩ := List.mem_map.1 hmem
    have := (List.mem_filter.1 hc).2
    simp only [bne_iff_ne, ne_eq] at this
    exact this hc1
  · intro hmem
    obtain ⟨c, hc, hc1⟩ := List.mem_map.1 hmem
    have hc' := List.mem_of_mem_filter hc
    have := (List.mem_filter.1 hc').2
    simp only [bne_iff_ne, ne_eq] at this
    exact this hc1
  · intro pos hmem
    obtain ⟨c, hc, hc1⟩ := List.mem_map.1 hmem
    rw [subFrame] at hc
    obtain ⟨c', hc', hcc⟩ := List.mem_map.1 hc
    have hc'' := List.mem_of_mem_filter hc'
    have := (List.mem_filter.1 hc'').2
    simp only [bne_iff_ne, ne_eq] at this
    apply this
    rw [← hc1, ← hcc]

/-- **C9**: the enrichment derives the 4-hour bucket as `hour // 4` and the
6-hour bucket as `hour // 6` for every row; hour 23 gives buckets 5 and 3,
hour 0 gives 0 and 0. -/
theorem C9_hour_buckets (ts : List Timestamp) (raw : Frame)
    (h4 : "timestamp_hour_4_hour_bucket" ∉ raw.map (fun c => c.1))
    (h6 : "timestamp_hour_6_hour_bucket" ∉ raw.map (fun c => c.1)) :
    colValues (generate_enrich ts raw) "timestamp_hour_4_hour_bucket"
      = some (ts.map (fun t => CellVal.num ((t.hour / 4 : ℕ)))) ∧
    colValues (generate_enrich ts raw) "timestamp_hour_6_hour_bucket"
      = some (ts.map (fun t => CellVal.num ((t.hour / 6 : ℕ)))) ∧
    (∀ t : Timestamp, t.hour = 23 → t.hour / 4 = 5 ∧ t.hour / 6 = 3) ∧
    (∀ t : Timestamp, t.hour = 0 → t.hour / 4 = 0 ∧ t.hour / 6 = 0) := by
  have hraw4 : raw.find? (fun c => c.1 == "timestamp_hour_4_hour_bucket") = none := by
    apply List.find?_eq_none.2
    intro x hx
    simp only [beq_iff_eq]
    intro hx1
    exact h4 (List.mem_map.2 ⟨x, hx, hx1⟩)
  have hraw6 : raw.find? (fun c => c.1 == "timestamp_hour_6_hour_bucket") = none := by
    apply List.find?_eq_none.2
    intro x hx
    simp only [beq_iff_eq]
    intro hx1
    exact h6 (List.mem_map.2 ⟨x, hx, hx1⟩)
  refine ⟨?_, ?_, ?_, ?_⟩
  · rw [colValues, generate_enrich, List.cons_append,
      List.find?_cons_of_neg _ (by simp), List.find?_append, hraw4]
    simp
  · rw [colValues, generate_enrich, List.cons_append,
      List.find?_cons_of_neg _ (by simp), List.find?_append, hraw6]
    simp
  · intro t ht
    rw [ht]
    omega
  · intro t ht
    rw [ht]
    omega

/-! ### Helper lemmas about the store: string order of isoformat dates -/

theorem toNat_digitChar : ∀ n, n < 10 → (digitChar n).toNat = 48 + n := by decide

theorem charsLe_digit_cons {m n : ℕ} (hm : m < 10) (hn : n < 10) {cs es : List Char} :
    (charsLe (digitChar m :: cs) (digitChar n :: es) = true)
      ↔ (m < n ∨ (m = n ∧ charsLe cs es = true)) := by
  simp only [charsLe, Bool.or_eq_true, decide_eq_true_eq, Bool.and_eq_true, beq_iff_eq,
    toNat_digitChar _ hm, toNat_digitChar _ hn]
  constructor
  · rintro (h | ⟨h, h'⟩)
    · left
      omega
    · right
      exact ⟨by omega, h'⟩
  · rintro (h | ⟨h, h'⟩)
    · left
      omega
    · right
      exact ⟨by omega, h'⟩

theorem lex2_iff {a1 a2 b1 b2 : ℕ} (ha2 : a2 < 10) (hb2 : b2 < 10) {P : Prop} :
    (a1 < b1 ∨ (a1 = b1 ∧ (a2 < b2 ∨ (a2 = b2 ∧ P))))
      ↔ (10 * a1 + a2 < 10 * b1 + b2 ∨ (10 * a1 + a2 = 10 * b1 + b2 ∧ P)) := by
  by_cases hP : P
  · simp only [hP, and_true]
    omega
  · simp only [hP, and_false, or_false]
    omega

theorem lex4_iff {a1 a2 a3 a4 b1 b2 b3 b4 : ℕ}
    (ha2 : a2 < 10) (ha3 : a3 < 10) (ha4 : a4 < 10)
    (hb2 : b2 < 10) (hb3 : b3 < 10) (hb4 : b4 < 10) {P : Prop} :
    (a1 < b1 ∨ (a1 = b1 ∧ (a2 < b2 ∨ (a2 = b2 ∧
      (a3 < b3 ∨ (a3 = b3 ∧ (a4 < b4 ∨ (a4 = b4 ∧ P))))))))
      ↔ (1000 * a1 + 100 * a2 + 10 * a3 + a4 < 1000 * b1 + 100 * b2 + 10 * b3 + b4
          ∨ (1000 * a1 + 100 * a2 + 10 * a3 + a4 = 1000 * b1 + 100 * b2 + 10 * b3 + b4 ∧ P)) := by
  by_cases hP : P
  · simp only [hP, and_true]
    omega
  · simp only [hP, and_false, or_false]
    omega

theorem charsLe_pad4 {m n : ℕ} {cs es : List Char} :
    (charsLe (pad4 m ++ cs) (pad4 n ++ es) = true)
      ↔ (m % 10000 < n % 10000 ∨ (m % 10000 = n % 10000 ∧ charsLe cs es = true)) := by
  have h1 : m / 1000 % 10 < 10 := Nat.mod_lt _ (by omega)
  have h2 : m / 100 % 10 < 10 := Nat.mod_lt _ (by omega)
  have h3 : m / 10 % 10 < 10 := Nat.mod_lt _ (by omega)
  have h4 : m % 10 < 10 := Nat.mod_lt _ (by omega)
  have g1 : n / 1000 % 10 < 10 := Nat.mod_lt _ (by omega)
  have g2 : n / 100 % 10 < 10 := Nat.mod_lt _ (by omega)
  have g3 : n / 10 % 10 < 10 := Nat.mod_lt _ (by omega)
  have g4 : n % 10 < 10 := Nat.mod_lt _ (by omega)
  have dm : 1000 * (m / 1000 % 10) + 100 * (m / 100 % 10) + 10 * (m / 10 % 10) + m % 10
      = m % 10000 := by omega
  have dn : 1000 * (n / 1000 % 10) + 100 * (n / 100 % 10) + 10 * (n / 10 % 10) + n % 10
      = n % 10000 := by omega
  simp only [pad4, List.cons_append, List.nil_append,
    charsLe_digit_cons h1 g1, charsLe_digit_cons h2 g2,
    charsLe_digit_cons h3 g3, charsLe_digit_cons h4 g4]
  rw [lex4_iff h2 h3 h4 g2 g3 g4, dm, dn]

theorem charsLe_pad2 {m n : ℕ} {cs es : List Char} :
    (charsLe (pad2 m ++ cs) (pad2 n ++ es) = true)
      ↔ (m % 100 < n % 100 ∨ (m % 100 = n % 100 ∧ charsLe cs es = true)) := by
  have h1 : m / 10 % 10 < 10 := Nat.mod_lt _ (by omega)
  have h2 : m % 10 < 10 := Nat.mod_lt _ (by omega)
  have g1 : n / 10 % 10 < 10 := Nat.mod_lt _ (by omega)
  have g2 : n % 10 < 10 := Nat.mod_lt _ (by omega)
  have dm : 10 * (m / 10 % 10) + m % 10 = m % 100 := by omega
  have dn : 10 * (n / 10 % 10) + n % 10 = n % 100 := by omega
  simp only [pad2, List.cons_append, List.nil_append,
    charsLe_digit_cons h1 g1, charsLe_digit_cons h2 g2]
  rw [lex2_iff h2 g2, dm, dn]

theorem charsLe_pad2_nil {m n : ℕ} :
    (charsLe (pad2 m) (pad2 n) = true) ↔ (m % 100 < n % 100 ∨ m % 100 = n % 100) := by
  have h := @charsLe_pad2 m n [] []
  rw [List.append_nil, List.append_nil] at h
  simpa [charsLe] using h

theorem charsLe_dash_cons {cs es : List Char} :
    (charsLe ('-' :: cs) ('-' :: es) = true) ↔ charsLe cs es = true := by
  have hd : ('-').toNat = 45 := by decide
  simp [charsLe, hd]

/-- Lexicographic order of isoformat strings coincides with calendar-date
order on valid dates. -/
theorem charsLe_iso_iff {a b : CalDate} (ha : ValidDate a) (hb : ValidDate b) :
    (charsLe (isoChars a) (isoChars b) = true) ↔ (dateLt a b ∨ a = b) := by
  obtain ⟨ay, am, ad⟩ := a
  obtain ⟨by', bm, bd⟩ := b
  obtain ⟨ha1, ha2, ha3, ha4, ha5, ha6⟩ := ha
  obtain ⟨hb1, hb2, hb3, hb4, hb5, hb6⟩ := hb
  simp only at ha1 ha2 ha3 ha4 ha5 ha6 hb1 hb2 hb3 hb4 hb5 hb6
  rw [isoChars, isoChars]
  simp only
  rw [charsLe_pad4, charsLe_dash_cons, charsLe_pad2, charsLe_dash_cons, charsLe_pad2_nil]
  simp only [dateLt, CalDate.mk.injEq]
  constructor
  · intro h
    omega
  · intro h
    omega

theorem charsLe_total : ∀ (x y : List Char), charsLe x y || charsLe y x
  | [], _ => by simp [charsLe]
  | _ :: _, [] => by simp [charsLe]
  | c :: cs, e :: es => by
    simp only [charsLe, Bool.or_eq_true, decide_eq_true_eq, Bool.and_eq_true, beq_iff_eq]
    rcases Nat.lt_trichotomy c.toNat e.toNat with h | h | h
    · exact Or.inl (Or.inl h)
    · have ht := charsLe_total cs es
      simp only [Bool.or_eq_true] at ht
      rcases ht with h' | h'
      · exact Or.inl (Or.inr ⟨h, h'⟩)
      · exact Or.inr (Or.inr ⟨h.symm, h'⟩)
    · exact Or.inr (Or.inl h)

theorem charsLe_trans : ∀ (x y z : List Char),
    charsLe x y → charsLe y z → charsLe x z
  | [], _, _ => by simp [charsLe]
  | _ :: _, [], _ => by simp [charsLe]
  | _ :: _, _ :: _, [] => by simp [charsLe]
  | c :: cs, e :: es, g :: gs => by
    simp only [charsLe, Bool.or_eq_true, decide_eq_true_eq, Bool.and_eq_true, beq_iff_eq]
    rintro (h1 | ⟨h1, h1'⟩) (h2 | ⟨h2, h2'⟩)
    · exact Or.inl (by omega)
    · exact Or.inl (by omega)
    · exact Or.inl (by omega)
    · exact Or.inr ⟨by omega, charsLe_trans cs es gs h1' h2'⟩

theorem rowLe_trans : ∀ (a b c : String × PyVal),
    strLe a.1 b.1 → strLe b.1 c.1 → strLe a.1 c.1 :=
  fun a b c h1 h2 => charsLe_trans a.1.data b.1.data c.1.data h1 h2

theorem rowLe_total : ∀ (a b : String × PyVal), strLe a.1 b.1 || strLe b.1 a.1 :=
  fun a b => charsLe_total a.1.data b.1.data

theorem find?_upsertRow (st : DbState) (k : String) (v : PyVal) :
    (upsertRow st k v).find? (fun r => r.1 == k) = some (k, v) := by
  rw [upsertRow, List.find?_append]
  have h1 : (st.filter (fun r => r.1 != k)).find? (fun r => r.1 == k) = none := by
    apply List.find?_eq_none.2
    intro x hx
    have hx2 := (List.mem_filter.1 hx).2
    simp only [bne_iff_ne, ne_eq] at hx2
    simp [hx2]
  rw [h1]
  simp

theorem filter_upsertRow (st : DbState) (k : String) (v : PyVal) :
    (upsertRow st k v).filter (fun r => r.1 == k) = [(k, v)] := by
  rw [upsertRow, List.filter_append]
  have h1 : (st.filter (fun r => r.1 != k)).filter (fun r => r.1 == k) = [] := by
    rw [List.filter_eq_nil_iff]
    intro x hx
    have hx2 := (List.mem_filter.1 hx).2
    simp only [bne_iff_ne, ne_eq] at hx2
    simp [hx2]
  rw [h1]
  simp

/-! ### Claims about the store -/

/-- **C2** (amended): upserting `X` then `Y` for the same day leaves the
point lookup equal to the JSON round-trip of `Y` (equal to `Y` up to
Python tuples reading back as lists), and the full dump holds exactly one
record for that day. -/
theorem C2_upsert_last_write_wins (st : DbState) (d : CalDate) (X Y : PyVal) :
    get_mental_insights_by_day
        ((insert_mental_insights_for_day
            ((insert_mental_insights_for_day st d X).1) d Y).1) d
      = some (jsonRoundtrip Y) ∧
    ((get_mental_insights_for_all_days
        ((insert_mental_insights_for_day
            ((insert_mental_insights_for_day st d X).1) d Y).1)).filter
        (fun r => r.1 == isoformat d)).length = 1 := by
  constructor
  · rw [get_mental_insights_by_day, insert_mental_insights_for_day]
    simp only
    rw [find?_upsertRow]
    rfl
  · rw [get_mental_insights_for_all_days]
    have hperm :=
      (List.mergeSort_perm ((insert_mental_insights_for_day
          ((insert_mental_insights_for_day st d X).1) d Y).1)
        (fun a b => strLe a.1 b.1)).filter (fun r => r.1 == isoformat d)
    rw [hperm.length_eq, insert_mental_insights_for_day]
    simp only
    rw [filter_upsertRow]
    rfl

/-- **C2** counterexample to the claim as literally stated: for a ranking
`Y` whose `correlations` hold a Python tuple (as every ranking produced by
`get_stress_level_insights` with a nonempty result does), the value read
back after `upsert(d, X); upsert(d, Y)` is *not* Python-`==` to `Y`,
because `json.dumps` writes the tuple as a JSON array and `json.loads`
reads it back as a list. -/
theorem C2_claim_as_stated_fails :
    get_mental_insights_by_day
        ((insert_mental_insights_for_day
            ((insert_mental_insights_for_day [] c2Day c2RankingY).1) c2Day c2RankingY).1) c2Day
      ≠ some c2RankingY := by
  have heval : get_mental_insights_by_day
      ((insert_mental_insights_for_day
          ((insert_mental_insights_for_day [] c2Day c2RankingY).1) c2Day c2RankingY).1) c2Day
      = some (jsonRoundtrip c2RankingY) := by
    rw [get_mental_insights_by_day, insert_mental_insights_for_day]
    simp only
    rw [find?_upsertRow]
    rfl
  rw [heval]
  simp [c2RankingY, jsonRoundtrip, jsonRoundtripList, jsonRoundtripKVs]

/-- **C5**: the point lookup for a day that was never written returns the
explicit absent signal `None`, never a default object. -/
theorem C5_get_never_written_is_none (st : DbState) (d : CalDate)
    (h : isoformat d ∉ st.map (fun r => r.1)) :
    get_mental_insights_by_day st d = none := by
  rw [get_mental_insights_by_day]
  have hf : st.find? (fun r => r.1 == isoformat d) = none := by
    apply List.find?_eq_none.2
    intro x hx
    simp only [beq_iff_eq]
    intro h1
    exact h (List.mem_map.2 ⟨x, hx, h1⟩)
  rw [hf]
  rfl

theorem C5_witness :
    (isoformat ⟨2024, 1, 2⟩
        ∉ ([(isoformat ⟨2024, 1, 1⟩, PyVal.num 1)] : DbState).map (fun r => r.1)) ∧
    get_mental_insights_by_day [(isoformat ⟨2024, 1, 1⟩, PyVal.num 1)] ⟨2024, 1, 2⟩ = none :=
  ⟨by decide, C5_get_never_written_is_none _ _ (by decide)⟩

/-- **C10**: `insert_mental_insights_for_day` is declared `-> bool` but
always returns `None` (its body has no return statement), so no caller can
observe success from the return value. -/
theorem C10_insert_returns_none (st : DbState) (d : CalDate) (v : PyVal) :
    (insert_mental_insights_for_day st d v).2 = none ∧
    (insert_mental_insights_for_day st d v).2 ≠ some true :=
  ⟨rfl, fun h => Option.noConfusion h⟩

/-- **C6**: `get_mental_insights_for_all_days` returns every stored record
exactly once (it is a permutation of the table rows), and consecutive
records are in strictly ascending calendar-date order. -/
theorem C6_get_all_ascending (st : DbState) (h1 : KeysNodup st) (h2 : DatesValid st) :
    List.Perm (get_mental_insights_for_all_days st) st ∧
    List.Chain' (fun a b => ∃ da db, ValidDate da ∧ ValidDate db ∧
        a.1 = isoformat da ∧ b.1 = isoformat db ∧ dateLt da db)
      (get_mental_insights_for_all_days st) := by
  have hperm : List.Perm (get_mental_insights_for_all_days st) st :=
    List.mergeSort_perm st _
  refine ⟨hperm, ?_⟩
  have hle : (get_mental_insights_for_all_days st).Pairwise
      (fun a b => strLe a.1 b.1) :=
    List.sorted_mergeSort rowLe_trans rowLe_total st
  have hnd : ((get_mental_insights_for_all_days st).map (fun r => r.1)).Nodup :=
    h1.perm (hperm.map (fun r => r.1)).symm
  have hne : (get_mental_insights_for_all_days st).Pairwise
      (fun a b => a.1 ≠ b.1) := List.pairwise_map.1 hnd
  have hcomb := hle.and hne
  refine (hcomb.imp_of_mem ?_).chain'
  intro a b ha hb hab
  have ha' : a ∈ st := hperm.subset ha
  have hb' : b ∈ st := hperm.subset hb
  obtain ⟨da, hda, hka⟩ := h2 a.1 (List.mem_map.2 ⟨a, ha', rfl⟩)
  obtain ⟨db, hdb, hkb⟩ := h2 b.1 (List.mem_map.2 ⟨b, hb', rfl⟩)
  refine ⟨da, db, hda, hdb, hka, hkb, ?_⟩
  have hle' : charsLe (isoChars da) (isoChars db) = true := by
    have hx := hab.1
    rw [hka, hkb] at hx
    exact hx
  rcases (charsLe_iso_iff hda hdb).1 hle' with h | h
  · exact h
  · exact absurd (by rw [hka, hkb, h]) hab.2

/-- The two-row store used to witness C6. -/
def c6St : DbState :=
  [(isoformat ⟨2024, 1, 2⟩, PyVal.num 2), (isoformat ⟨2024, 1, 1⟩, PyVal.num 1)]

theorem C6_witness :
    KeysNodup c6St ∧ DatesValid c6St ∧
    (List.Perm (get_mental_insights_for_all_days c6St) c6St ∧
     List.Chain' (fun a b => ∃ da db, ValidDate da ∧ ValidDate db ∧
        a.1 = isoformat da ∧ b.1 = isoformat db ∧ dateLt da db)
      (get_mental_insights_for_all_days c6St)) := by
  have h1 : KeysNodup c6St := by decide
  have h2 : DatesValid c6St := by
    intro k hk
    simp only [c6St, List.map_cons, List.map_nil, List.mem_cons,
      List.not_mem_nil, or_false] at hk
    rcases hk with h | h
    · exact ⟨⟨2024, 1, 2⟩, by decide, h⟩
    · exact ⟨⟨2024, 1, 1⟩, by decide, h⟩
  exact ⟨h1, h2, C6_get_all_ascending c6St h1 h2⟩

/-! ### Remaining witnesses for ranker claims -/

/-- A concrete frame with a constant column, used to witness C4. -/
def c4Frame : Frame :=
  [("stress_level", [CellVal.num 5, CellVal.num 8, CellVal.num 3]),
   ("hr", [CellVal.num 70, CellVal.num 90, CellVal.num 60]),
   ("flat", [CellVal.num 4, CellVal.num 4, CellVal.num 4])]

theorem C4_witness :
    ((numericCols c4Frame).map (fun p => p.1)).Nodup ∧
    ("stress_level" ∉ (get_stress_level_insights c4Frame 2).top_stress_features ∧
     "stress_level" ∉ ((get_stress_level_insights c4Frame 2).correlations).map (fun p => p.1) ∧
     (∀ p ∈ (get_stress_level_insights c4Frame 2).correlations, corrDefined p.2 = true) ∧
     (∀ name vals, (name, vals) ∈ numericCols c4Frame →
        (∀ x ∈ vals, ∀ y ∈ vals, x = y) →
        name ∉ (get_stress_level_insights c4Frame 2).top_stress_features)) :=
  ⟨by decide, C4_target_and_nan_excluded c4Frame 2 (by decide)⟩

theorem C9_witness :
    ("timestamp_hour_4_hour_bucket" ∉ scenarioRaw.map (fun c => c.1)) ∧
    ("timestamp_hour_6_hour_bucket" ∉ scenarioRaw.map (fun c => c.1)) ∧
    (colValues (generate_enrich scenarioTs scenarioRaw) "timestamp_hour_4_hour_bucket"
        = some (scenarioTs.map (fun t => CellVal.num ((t.hour / 4 : ℕ)))) ∧
     colValues (generate_enrich scenarioTs scenarioRaw) "timestamp_hour_6_hour_bucket"
        = some (scenarioTs.map (fun t => CellVal.num ((t.hour / 6 : ℕ)))) ∧
     (∀ t : Timestamp, t.hour = 23 → t.hour / 4 = 5 ∧ t.hour / 6 = 3) ∧
     (∀ t : Timestamp, t.hour = 0 → t.hour / 4 = 0 ∧ t.hour / 6 = 0)) :=
  ⟨by decide, by decide, C9_hour_buckets scenarioTs scenarioRaw (by decide) (by decide)⟩

end MentalInsights
